import Mathlib

/-!
Verification of the `dandidav` WebDAV gateway core against its specification.

Part 1 embeds the path model (`src/paths/dirpath.rs`): the `PureDirPath`
type, its parser and its operations, over `List Char` as the string model.
Part 2 embeds the WebDAV protocol layer and resolution engine
(`src/dav/mod.rs`), with the collaborator types that live outside the
provided sources modelled from the specification.
-/

set_option autoImplicit false

deriving instance DecidableEq for Except

namespace PureDirPath

/-- The NUL character rejected by path parsing. -/
def nulChar : Char := Char.ofNat 0

/-- Splitting a character list on `'/'`, mirroring Rust's `str::split('/')`
(so the empty string splits into one empty segment). -/
def splitSlash : List Char → List (List Char)
  | [] => [[]]
  | c :: rest =>
    if c = '/' then [] :: splitSlash rest
    else
      match splitSlash rest with
      | [] => [[c]]
      | g :: gs => (c :: g) :: gs

/-- Joining segments with `'/'` separators (inverse of `splitSlash`). -/
def joinSegs : List (List Char) → List Char
  | [] => []
  | [c] => c
  | c :: cs => c ++ '/' :: joinSegs cs

/-- Serialization of a segment list as a directory path: every segment is
followed by one `'/'`.  This is the shape of a stored `PureDirPath` string. -/
def serializeDir : List (List Char) → List Char
  | [] => []
  | c :: cs => c ++ '/' :: serializeDir cs

/-- Modelled from the spec: a `Component` (src/paths/component.rs is not in
the provided sources) is a single nonempty path segment with no `/`, no NUL,
and not `.` or `..`. -/
def validSeg (c : List Char) : Prop :=
  c ≠ [] ∧ '/' ∉ c ∧ nulChar ∉ c ∧ c ≠ ['.'] ∧ c ≠ ['.', '.']

instance (c : List Char) : Decidable (validSeg c) := by
  unfold validSeg; infer_instance

/-- A nonempty list of valid segments: the abstract form of a well-formed
`PureDirPath`. -/
def validSegs (cs : List (List Char)) : Prop :=
  cs ≠ [] ∧ ∀ c ∈ cs, validSeg c

/-- Rust's `str::strip_suffix('/')`: strips one trailing slash if present. -/
def stripSuffixSlash : List Char → Option (List Char)
  | [] => none
  | [c] => if c = '/' then some [] else none
  | c :: rest => (stripSuffixSlash rest).map (c :: ·)

/-- Error kinds of `PureDirPath` parsing (`ParsePureDirPathError`). -/
inductive ParseErr where
  | NotDir
  | StartsWithSlash
  | Nul
  | NotNormalized
deriving DecidableEq, Repr

/-- Embedding of `PureDirPath::from_str`: strip the trailing slash (else
`NotDir`), reject a leading slash, reject NUL, reject empty/`.`/`..`
segments of the pre-slash prefix, and otherwise return the input string
unchanged as the parsed value. -/
def from_str (s : List Char) : Except ParseErr (List Char) :=
  match stripSuffixSlash s with
  | none => .error .NotDir
  | some pre =>
    if s.head? = some '/' then .error .StartsWithSlash
    else if nulChar ∈ s then .error .Nul
    else if (splitSlash pre).any (fun p => decide (p = [] ∨ p = ['.'] ∨ p = ['.', '.'])) then
      .error .NotNormalized
    else .ok s

/-- A string is a valid `PureDirPath` when parsing accepts it unchanged. -/
def Valid (s : List Char) : Prop := from_str s = .ok s

instance (s : List Char) : Decidable (Valid s) := by
  unfold Valid; infer_instance

/-- Rust's `str::trim_end_matches('/')`: drop all trailing slashes. -/
def trimEndSlashes : List Char → List Char
  | [] => []
  | c :: rest =>
    match trimEndSlashes rest with
    | [] => if c = '/' then [] else [c]
    | t => c :: t

/-- Index of the last `'/'` in a character list (Rust's `str::rfind('/')`). -/
def rfindSlash : List Char → Option Nat
  | [] => none
  | c :: rest =>
    match rfindSlash rest with
    | some i => some (i + 1)
    | none => if c = '/' then some 0 else none

/-- Embedding of `PureDirPath::parent`: find the last slash of the path with
trailing slashes trimmed and keep everything up to and including it. -/
def parent (s : List Char) : Option (List Char) :=
  match rfindSlash (trimEndSlashes s) with
  | none => none
  | some i => some (s.take (i + 1))

/-- Embedding of `PureDirPath::join_dir`: string concatenation. -/
def join_dir (self path : List Char) : List Char := self ++ path

/-- Embedding of `PureDirPath::join_one_dir`: `format!("{self}{c}/")`. -/
def join_one_dir (self c : List Char) : List Char := self ++ c ++ ['/']

/-- Embedding of `PureDirPath::push`: append the component then a slash. -/
def push (self c : List Char) : List Char := self ++ c ++ ['/']

/-- Rust's `str::strip_prefix(pre)` on lists. -/
def removeLead : List Char → List Char → Option (List Char)
  | [], s => some s
  | _ :: _, [] => none
  | a :: pre, b :: s => if a = b then removeLead pre s else none

/-- Embedding of `PureDirPath::relative_to`: strip `dirpath` as a prefix and
reject an empty remainder. -/
def relative_to (self dirpath : List Char) : Option (List Char) :=
  match removeLead dirpath self with
  | none => none
  | some s => if s = [] then none else some s

/-- Embedding of `From<Component> for PureDirPath`: append one slash. -/
def ofComponent (c : List Char) : List Char := c ++ ['/']

end PureDirPath

/-! ## WebDAV layer (`src/dav/mod.rs`)

The handler logic below is embedded from `src/dav/mod.rs`.  The collaborator
modules it uses (`dav/path.rs`, `dav/types.rs`, `dav/util.rs`, `dav/xml.rs`,
the Archive and Zarr-manifest clients, the templater) are not among the
provided sources, so their types are modelled from the specification
(sections 3, 4.2, 4.4, 6). -/

/-- Modelled from the spec: a version spec selects Draft, a specific
Published version id, or Latest (most recent published). -/
inductive VersionSpec where
  | Draft
  | Published (version_id : String)
  | Latest
deriving DecidableEq, Repr

/-- Modelled from the spec: the id of a concrete backend version, either the
draft version or a published version id. -/
inductive VersionId where
  | Draft
  | Published (version_id : String)
deriving DecidableEq, Repr

/-- Modelled from the spec: a version record returned by the archive backend
(`DandisetVersion { version, .. }`). -/
structure DandisetVersion where
  version : VersionId
deriving DecidableEq, Repr

/-- Modelled from the spec: dandiset metadata returned by the archive backend,
with a draft version and an optional most-recently-published version. -/
structure Dandiset where
  identifier : String
  draft_version : DandisetVersion
  most_recent_published_version : Option DandisetVersion
deriving DecidableEq, Repr

/-- Modelled from the spec: the fully resolved semantic address of a request
(`DavPath` in `dav/path.rs`, nine variants per section 3). -/
inductive DavPath where
  | Root
  | DandisetIndex
  | Dandiset (dandiset_id : String)
  | DandisetReleases (dandiset_id : String)
  | Version (dandiset_id : String) (version : VersionSpec)
  | DandisetYaml (dandiset_id : String) (version : VersionSpec)
  | DandiResource (dandiset_id : String) (version : VersionSpec) (path : String)
  | ZarrIndex
  | ZarrPath (path : String)
deriving DecidableEq, Repr

/-- Modelled from the spec: archive backend errors expose a not-found
predicate (section 6: "error exposing is-this-a-not-found"). -/
structure DandiError where
  is404 : Bool
deriving DecidableEq, Repr

/-- Modelled from the spec: manifest backend errors expose a not-found
predicate. -/
structure ZarrManError where
  is404 : Bool
deriving DecidableEq, Repr

/-- Modelled from the spec: HTML template rendering failure. -/
structure TemplateError where
  message : String
deriving DecidableEq, Repr

/-- Modelled from the spec: multistatus XML serialization failure kind.  The
provided sources never construct it; it only appears in the error taxonomy. -/
structure ToXmlError where
  message : String
deriving DecidableEq, Repr

/-- Embedding of `DavError` from `src/dav/mod.rs`. -/
inductive DavError where
  | Dandi (e : DandiError)
  | ZarrMan (e : ZarrManError)
  | NoLatestVersion (dandiset_id : String)
  | Template (e : TemplateError)
  | Xml (e : ToXmlError)
deriving DecidableEq, Repr

namespace DavError

/-- Embedding of `DavError::is_404`: backend errors defer to their own
not-found predicate, `NoLatestVersion` is always not-found, everything else
never is. -/
def is_404 : DavError → Bool
  | .Dandi e => e.is404
  | .ZarrMan e => e.is404
  | .NoLatestVersion _ => true
  | _ => false

end DavError

/-- Modelled from the spec: the string form of `version_path(id, spec)` from
`dav/path.rs` — the directory address of a dandiset version under the
requested alias (`draft`, `latest`, or the concrete version id). -/
def versionSegment : VersionSpec → String
  | .Draft => "draft"
  | .Published v => v
  | .Latest => "latest"

/-- Modelled from the spec: `version_path(dandiset_id, spec)` produces the
collection address `dandisets/<id>/<segment>/`. -/
def version_path (dandiset_id : String) (spec : VersionSpec) : String :=
  "dandisets/" ++ dandiset_id ++ "/" ++ versionSegment spec ++ "/"

/-- Modelled from the spec: version metadata fetched for `dandiset.yaml`. -/
structure VersionMetadata where
  yaml : String
deriving DecidableEq, Repr

/-- Modelled from the spec: the content of an item resource — a byte blob, a
redirect carrying both the direct-storage URL and the archive-mediated URL,
or transiently missing content. -/
inductive DavContent where
  | Blob (bytes : String)
  | Redirect (s3_url : String) (archive_url : String)
  | Missing
deriving DecidableEq, Repr

/-- Modelled from the spec: an item resource with an address, a content type
and content (`DavItem` in `dav/types.rs`). -/
structure DavItem where
  path : String
  content_type : String
  content : DavContent
deriving DecidableEq, Repr

/-- Modelled from the spec: the provenance of a collection resource — which
constructor of `dav/types.rs` built it, with its arguments. -/
inductive CollectionKind where
  | root
  | dandisetIndex
  | zarrIndex
  | releases
  | ofVersion (v : DandisetVersion)
  | ofDandiset (ds : Dandiset)
  | backend (tag : String)
deriving DecidableEq, Repr

/-- Modelled from the spec: a collection resource with an address and
collection-level provenance/metadata (`DavCollection` in `dav/types.rs`). -/
structure DavCollection where
  path : String
  kind : CollectionKind
deriving DecidableEq, Repr

namespace DavCollection

/-- Modelled from the spec: the synthetic root collection. -/
def root : DavCollection := ⟨"", .root⟩

/-- Modelled from the spec: the synthetic `dandisets/` index collection. -/
def dandiset_index : DavCollection := ⟨"dandisets/", .dandisetIndex⟩

/-- Modelled from the spec: the synthetic `zarrs/` index collection. -/
def zarr_index : DavCollection := ⟨"zarrs/", .zarrIndex⟩

/-- Modelled from the spec: the `releases` collection of a dandiset. -/
def dandiset_releases (dandiset_id : String) : DavCollection :=
  ⟨"dandisets/" ++ dandiset_id ++ "/releases/", .releases⟩

/-- Modelled from the spec: `DavCollection::dandiset_version(v, path)` — a
collection for a concrete dandiset version at the given address. -/
def dandiset_version (v : DandisetVersion) (path : String) : DavCollection :=
  ⟨path, .ofVersion v⟩

/-- Modelled from the spec: `DavCollection::from(ds)` — the collection view
of a dandiset itself. -/
def ofDandiset (ds : Dandiset) : DavCollection :=
  ⟨"dandisets/" ++ ds.identifier ++ "/", .ofDandiset ds⟩

/-- Modelled from the spec: the version-alias path-rewriting transform on a
collection address (section 4.3, "Path rewriting"). -/
def under_version_path (c : DavCollection) (dandiset_id : String)
    (spec : VersionSpec) : DavCollection :=
  ⟨version_path dandiset_id spec ++ c.path, c.kind⟩

end DavCollection

/-- Modelled from the spec: the version-alias path-rewriting transform on an
item address. -/
def DavItem.under_version_path (i : DavItem) (dandiset_id : String)
    (spec : VersionSpec) : DavItem :=
  ⟨version_path dandiset_id spec ++ i.path, i.content_type, i.content⟩

/-- Modelled from the spec: `DavItem::from(md)` wraps version metadata as the
virtual `dandiset.yaml` item. -/
def DavItem.ofMetadata (md : VersionMetadata) : DavItem :=
  ⟨"dandiset.yaml", "text/yaml", .Blob md.yaml⟩

/-- Modelled from the spec: a resource is either a collection or an item
(`DavResource` in `dav/types.rs`). -/
inductive DavResource where
  | Collection (c : DavCollection)
  | Item (i : DavItem)
deriving DecidableEq, Repr

/-- Modelled from the spec: path rewriting on either kind of resource. -/
def DavResource.under_version_path (r : DavResource) (dandiset_id : String)
    (spec : VersionSpec) : DavResource :=
  match r with
  | .Collection c => .Collection (c.under_version_path dandiset_id spec)
  | .Item i => .Item (i.under_version_path dandiset_id spec)

/-- Modelled from the spec: the synthetic root resource
(`DavResource::root()`). -/
def DavResource.rootRes : DavResource := .Collection DavCollection.root

/-- Modelled from the spec: a resource together with one level of children
(`DavResourceWithChildren` in `dav/types.rs`). -/
inductive DavResourceWithChildren where
  | Collection (col : DavCollection) (children : List DavResource)
  | Item (i : DavItem)
deriving DecidableEq, Repr

namespace DavResourceWithChildren

/-- Modelled from the spec: the root resource with its two synthetic index
children. -/
def root : DavResourceWithChildren :=
  .Collection DavCollection.root
    [.Collection DavCollection.dandiset_index, .Collection DavCollection.zarr_index]

/-- Modelled from the spec: `into_vec` flattens a resource-with-children into
the sequence `[self] ++ children` (an item has no children). -/
def into_vec : DavResourceWithChildren → List DavResource
  | .Collection col children => DavResource.Collection col :: children
  | .Item i => [DavResource.Item i]

/-- The number of children of a resolved resource (an item has none). -/
def numChildren : DavResourceWithChildren → Nat
  | .Collection _ children => children.length
  | .Item _ => 0

end DavResourceWithChildren

/-- Modelled from the spec: the `Depth` header values accepted by `PROPFIND`
(`FiniteDepth` in `dav/util.rs`): exactly `0` or `1`. -/
inductive FiniteDepth where
  | Zero
  | One
deriving DecidableEq, Repr

/-- Modelled from the spec: parsing the `Depth` header — must be exactly the
string `0` or `1`; any other value (including `infinity`) is rejected. -/
def parseDepth (s : String) : Option FiniteDepth :=
  if s = "0" then some .Zero
  else if s = "1" then some .One
  else none

/-- Modelled from the spec: a parsed `PROPFIND` request body — `allprop`,
`propname`, or an explicit named-property set (RFC 4918 section 14.1). -/
inductive PropFind where
  | allprop
  | propname
  | prop (names : List String)
deriving DecidableEq, Repr

/-- Modelled from the spec: the single `<response>` element produced by
matching one resolved resource against the parsed query. -/
structure ResponseElem where
  query : PropFind
  resource : DavResource
deriving DecidableEq, Repr

/-- Modelled from the spec: `PropFind::find` matches a resource against the
query, producing its `<response>` element. -/
def PropFind.find (q : PropFind) (r : DavResource) : ResponseElem := ⟨q, r⟩

/-- Modelled from the spec: the multistatus XML envelope, one `<response>`
per resolved resource (`Multistatus` in `dav/xml.rs`, kept structural). -/
structure Multistatus where
  response : List ResponseElem
deriving DecidableEq, Repr

/-- Modelled from the spec: the body of an HTTP response, kept structural
(the multistatus document is not serialized to text in this model). -/
inductive HttpBody where
  | empty
  | text (s : String)
  | html (s : String)
  | blob (bytes : String)
  | multistatus (m : Multistatus)
deriving DecidableEq, Repr

/-- Modelled from the spec: an HTTP response with status, headers, body. -/
structure HttpResponse where
  status : Nat
  headers : List (String × String)
  body : HttpBody
deriving DecidableEq, Repr

/-- The two fixed WebDAV headers from `WEBDAV_RESPONSE_HEADERS` in
`src/dav/mod.rs`. -/
def WEBDAV_RESPONSE_HEADERS : List (String × String) :=
  [("Allow", "GET, HEAD, OPTIONS, PROPFIND"), ("DAV", "1, 3")]

/-- Content type of DAV XML responses (`DAV_XML_CONTENT_TYPE`). -/
def DAV_XML_CONTENT_TYPE : String := "application/xml; charset=utf-8"

/-- Content type of HTML responses (`HTML_CONTENT_TYPE`). -/
def HTML_CONTENT_TYPE : String := "text/html; charset=utf-8"

/-- Embedding of the `not_found` helper of `src/dav/mod.rs`: a minimal 404
response. -/
def not_found_resp : HttpResponse := ⟨404, [], .text "404\n"⟩

/-- Modelled from the spec: the client-error response produced by the
`(FiniteDepth, PropFind)` extractor when the `Depth` header or body is
malformed, answered before the Resolution Engine is invoked. -/
def bad_request_resp : HttpResponse := ⟨400, [], .empty⟩

/-- Modelled from the spec: the HTML-collection context handed to the
external templater (children, site title, breadcrumb path parts). -/
structure CollectionContext where
  children : List DavResource
  title : String
  pathparts : List String
deriving DecidableEq, Repr

/-- Modelled from the spec: the backend collaborators of section 6 (archive
client, manifest client, templater) together with the static configuration
of `DandiDav`.  Lazy backend sequences are modelled as lists of fallible
items consumed in order; each client call is a function returning
`Except`. -/
structure Backends where
  dandisetGet : String → Except DandiError Dandiset
  allDandisets : List (Except DandiError Dandiset)
  allVersions : String → List (Except DandiError DandisetVersion)
  versionGet : String → VersionId → Except DandiError DandisetVersion
  versionMetadata : String → VersionId → Except DandiError VersionMetadata
  versionRootChildren : String → VersionId → List (Except DandiError DavResource)
  versionResourceAt : String → VersionId → String → Except DandiError DavResource
  versionResourceWithChildrenAt :
    String → VersionId → String → Except DandiError DavResourceWithChildren
  zarrResource : String → Except ZarrManError DavResource
  zarrResourceWithChildren : String → Except ZarrManError DavResourceWithChildren
  zarrTopLevelDirs : Except ZarrManError (List DavResource)
  renderCollection : CollectionContext → Except TemplateError String
  title : String
  prefer_s3_redirects : Bool

/-- Modelled from the spec: an inbound HTTP request — verb, URL path, the
`Depth` header, and the parsed `PROPFIND` body (`none` when the body is
unparseable; an absent body is already defaulted to `allprop`). -/
structure Request where
  method : String
  uriPath : String
  depthHeader : String
  body : Option PropFind

/-- Rust's `str::eq_ignore_ascii_case`, used for `PROPFIND` verb matching. -/
def asciiLower (c : Char) : Char :=
  if 'A' ≤ c ∧ c ≤ 'Z' then Char.ofNat (c.toNat + 32) else c

/-- ASCII case-insensitive string equality. -/
def eqIgnoreAsciiCase (a b : String) : Bool :=
  a.data.map asciiLower = b.data.map asciiLower

/-- Collect a fallible lazy sequence eagerly into an ordered list, aborting
on the first error (the `try_collect` / `try_next` consumption pattern). -/
def collectOk {E A : Type} : List (Except E A) → Except E (List A)
  | [] => .ok []
  | .error e :: _ => .error e
  | .ok a :: rest => (collectOk rest).map (a :: ·)

/-- Embedding of `VersionHandler`: a per-request value scoping a dandiset
id, the requested version spec, and the resolved version endpoint. -/
structure VersionHandler where
  dandiset_id : String
  version_spec : VersionSpec
  endpoint : VersionId
deriving DecidableEq, Repr

namespace DandiDav

/-- Embedding of `DandiDav::get_version_handler`: `Draft` and `Published`
resolve directly; `Latest` fetches the dandiset metadata and uses its
most-recently-published version, failing with `NoLatestVersion` when there
is none. -/
def get_version_handler (b : Backends) (dandiset_id : String)
    (version_spec : VersionSpec) : Except DavError VersionHandler :=
  match version_spec with
  | .Draft => .ok ⟨dandiset_id, version_spec, .Draft⟩
  | .Published v => .ok ⟨dandiset_id, version_spec, .Published v⟩
  | .Latest =>
    match (b.dandisetGet dandiset_id).mapError DavError.Dandi with
    | .error e => .error e
    | .ok ds =>
      match ds.most_recent_published_version with
      | some dv => .ok ⟨dandiset_id, version_spec, dv.version⟩
      | none => .error (.NoLatestVersion dandiset_id)

/-- Embedding of `VersionHandler::get`: the version itself as a collection
addressed under the requested version spec. -/
def handler_get (b : Backends) (h : VersionHandler) : Except DavError DavCollection :=
  ((b.versionGet h.dandiset_id h.endpoint).mapError DavError.Dandi).map
    (fun v => DavCollection.dandiset_version v (version_path h.dandiset_id h.version_spec))

/-- Embedding of `VersionHandler::get_root_children`: the root-level listing
of the version's file tree, each entry rewritten under the requested
version path. -/
def handler_get_root_children (b : Backends) (h : VersionHandler) :
    Except DandiError (List DavResource) :=
  collectOk ((b.versionRootChildren h.dandiset_id h.endpoint).map
    (Except.map (fun r => r.under_version_path h.dandiset_id h.version_spec)))

/-- Embedding of `VersionHandler::get_dandiset_yaml`: fetch the version
metadata and wrap it as the `dandiset.yaml` item under the requested
version path. -/
def handler_get_dandiset_yaml (b : Backends) (h : VersionHandler) :
    Except DavError DavItem :=
  ((b.versionMetadata h.dandiset_id h.endpoint).mapError DavError.Dandi).map
    (fun md => (DavItem.ofMetadata md).under_version_path h.dandiset_id h.version_spec)

/-- Embedding of `VersionHandler::get_resource`. -/
def handler_get_resource (b : Backends) (h : VersionHandler) (path : String) :
    Except DavError DavResource :=
  ((b.versionResourceAt h.dandiset_id h.endpoint path).mapError DavError.Dandi).map
    (fun r => r.under_version_path h.dandiset_id h.version_spec)

/-- Embedding of `VersionHandler::get_resource_with_children`. -/
def handler_get_resource_with_children (b : Backends) (h : VersionHandler)
    (path : String) : Except DavError DavResourceWithChildren :=
  ((b.versionResourceWithChildrenAt h.dandiset_id h.endpoint path).mapError
      DavError.Dandi).map
    (fun r =>
      match r with
      | .Collection col children =>
        .Collection (col.under_version_path h.dandiset_id h.version_spec)
          (children.map (fun c => c.under_version_path h.dandiset_id h.version_spec))
      | .Item i => .Item (i.under_version_path h.dandiset_id h.version_spec))

/-- Embedding of `DandiDav::get_resource`: resolve an address to a single
resource without children. -/
def get_resource (b : Backends) (path : DavPath) : Except DavError DavResource :=
  match path with
  | .Root => .ok DavResource.rootRes
  | .DandisetIndex => .ok (.Collection DavCollection.dandiset_index)
  | .Dandiset dandiset_id =>
    ((b.dandisetGet dandiset_id).mapError DavError.Dandi).map
      (fun ds => .Collection (DavCollection.ofDandiset ds))
  | .DandisetReleases dandiset_id =>
    .ok (.Collection (DavCollection.dandiset_releases dandiset_id))
  | .Version dandiset_id version =>
    (get_version_handler b dandiset_id version).bind
      (fun h => (handler_get b h).map DavResource.Collection)
  | .DandisetYaml dandiset_id version =>
    (get_version_handler b dandiset_id version).bind
      (fun h => (handler_get_dandiset_yaml b h).map DavResource.Item)
  | .DandiResource dandiset_id version p =>
    (get_version_handler b dandiset_id version).bind
      (fun h => handler_get_resource b h p)
  | .ZarrIndex => .ok (.Collection DavCollection.zarr_index)
  | .ZarrPath p => (b.zarrResource p).mapError DavError.ZarrMan

/-- Embedding of the version-stream consumption loop of the
`DandisetReleases` branch of `DandiDav::get_resource_with_children`: keep
only `Published` versions, in stream order, each addressed under its
concrete version id; abort on the first stream error. -/
def releaseChildren (dandiset_id : String) :
    List (Except DandiError DandisetVersion) → Except DavError (List DavResource)
  | [] => .ok []
  | .error e :: _ => .error (.Dandi e)
  | .ok v :: rest =>
    match v.version with
    | .Published pvid =>
      (releaseChildren dandiset_id rest).map
        (DavResource.Collection
          (DavCollection.dandiset_version v
            (version_path dandiset_id (.Published pvid))) :: ·)
    | .Draft => releaseChildren dandiset_id rest

/-- Embedding of `DandiDav::get_resource_with_children`: resolve an address
to a resource together with its immediate children. -/
def get_resource_with_children (b : Backends) (path : DavPath) :
    Except DavError DavResourceWithChildren :=
  match path with
  | .Root => .ok DavResourceWithChildren.root
  | .DandisetIndex =>
    (collectOk (b.allDandisets.map
        (Except.map (fun ds => DavResource.Collection (DavCollection.ofDandiset ds))))).mapError
        DavError.Dandi |>.map
      (fun children => .Collection DavCollection.dandiset_index children)
  | .Dandiset dandiset_id =>
    ((b.dandisetGet dandiset_id).mapError DavError.Dandi).bind
      (fun ds =>
        let draft := DavResource.Collection
          (DavCollection.dandiset_version ds.draft_version
            (version_path dandiset_id .Draft))
        let children := match ds.most_recent_published_version with
          | some v =>
            [draft,
             .Collection (DavCollection.dandiset_version v
               (version_path dandiset_id .Latest)),
             .Collection (DavCollection.dandiset_releases dandiset_id)]
          | none => [draft]
        let col := DavCollection.ofDandiset
          { ds with most_recent_published_version := none }
        .ok (.Collection col children))
  | .DandisetReleases dandiset_id =>
    (releaseChildren dandiset_id (b.allVersions dandiset_id)).map
      (fun children =>
        .Collection (DavCollection.dandiset_releases dandiset_id) children)
  | .Version dandiset_id version =>
    (get_version_handler b dandiset_id version).bind
      (fun h =>
        (handler_get b h).bind
          (fun col =>
            ((handler_get_root_children b h).mapError DavError.Dandi).bind
              (fun children =>
                (handler_get_dandiset_yaml b h).map
                  (fun yaml =>
                    .Collection col (children ++ [DavResource.Item yaml])))))
  | .DandisetYaml dandiset_id version =>
    (get_version_handler b dandiset_id version).bind
      (fun h => (handler_get_dandiset_yaml b h).map DavResourceWithChildren.Item)
  | .DandiResource dandiset_id version p =>
    (get_version_handler b dandiset_id version).bind
      (fun h => handler_get_resource_with_children b h p)
  | .ZarrIndex =>
    ((b.zarrTopLevelDirs).mapError DavError.ZarrMan).map
      (fun children => .Collection DavCollection.zarr_index children)
  | .ZarrPath p => (b.zarrResourceWithChildren p).mapError DavError.ZarrMan

/-- Embedding of `DandiDav::get`: serve a `GET` request for a resolved
address — collections render to HTML, blob items stream their bytes,
redirect items answer 307 to the configured URL, missing items 404. -/
def getVerb (b : Backends) (path : DavPath) (pathparts : List String) :
    Except DavError HttpResponse :=
  (get_resource_with_children b path).bind
    (fun r =>
      match r with
      | .Collection _ children =>
        ((b.renderCollection ⟨children, b.title, pathparts⟩).mapError
            DavError.Template).map
          (fun html => ⟨200, [("Content-Type", HTML_CONTENT_TYPE)], .html html⟩)
      | .Item i =>
        match i.content with
        | .Blob blob =>
          .ok ⟨200, [("Content-Type", i.content_type)], .blob blob⟩
        | .Redirect s3 archive =>
          .ok ⟨307,
            [("Location", if b.prefer_s3_redirects then s3 else archive)], .empty⟩
        | .Missing => .ok not_found_resp)

/-- Embedding of `DandiDav::propfind`: Depth 0 resolves one resource, Depth 1
flattens a resource-with-children; each resource is matched against the
query and the responses are bundled into one 207 multistatus. -/
def propfind (b : Backends) (path : DavPath) (depth : FiniteDepth)
    (query : PropFind) : Except DavError HttpResponse :=
  let fetched : Except DavError (List DavResource) :=
    match depth with
    | .Zero => (get_resource b path).map (fun r => [r])
    | .One =>
      (get_resource_with_children b path).map DavResourceWithChildren.into_vec
  fetched.map
    (fun resources =>
      ⟨207, [("Content-Type", DAV_XML_CONTENT_TYPE)],
        .multistatus ⟨resources.map (fun r => query.find r)⟩⟩)

/-- The `PROPFIND` parameter extraction of `DandiDav::inner_handle_request`:
a malformed `Depth` header or body short-circuits to a client error without
touching any backend. -/
def propfindEntry (b : Backends) (path : DavPath) (depthHeader : String)
    (body : Option PropFind) : Except DavError HttpResponse :=
  match parseDepth depthHeader, body with
  | some depth, some query => propfind b path depth query
  | _, _ => .ok bad_request_resp

/-- Embedding of `DandiDav::inner_handle_request`: verb dispatch.  Path
parsing (`split_uri_path` composed with `DavPath::from_components`, from the
absent `dav/path.rs`) is taken as the parameter `parsePath`, returning the
semantic address and the raw path components. -/
def inner_handle_request (parsePath : String → Option (DavPath × List String))
    (b : Backends) (req : Request) : Except DavError HttpResponse :=
  if req.method = "GET" then
    match parsePath req.uriPath with
    | none => .ok not_found_resp
    | some (path, parts) => getVerb b path parts
  else if req.method = "OPTIONS" then .ok ⟨204, [], .empty⟩
  else if eqIgnoreAsciiCase req.method "PROPFIND" then
    match parsePath req.uriPath with
    | none => .ok not_found_resp
    | some (path, _) => propfindEntry b path req.depthHeader req.body
  else .ok ⟨405, [], .empty⟩

/-- The error-to-response mapping of `DandiDav::handle_request`: not-found
errors answer the minimal 404 body, everything else a 500. -/
def errorResponse (e : DavError) : HttpResponse :=
  if e.is_404 then not_found_resp else ⟨500, [], .text "500\n"⟩

/-- Embedding of `DandiDav::handle_request`: delegate to
`inner_handle_request`, convert errors per `errorResponse`, and add the two
fixed WebDAV headers to the final response. -/
def handle_request (parsePath : String → Option (DavPath × List String))
    (b : Backends) (req : Request) : HttpResponse :=
  let resp := match inner_handle_request parsePath b req with
    | .ok r => r
    | .error e => errorResponse e
  ⟨resp.status, WEBDAV_RESPONSE_HEADERS ++ resp.headers, resp.body⟩

end DandiDav

/-! Concrete instances used by the witness theorems. -/

/-- A concrete dandiset with no published version. -/
def ds0 : Dandiset := ⟨"000001", ⟨.Draft⟩, none⟩

/-- A concrete published version record. -/
def pv0 : DandisetVersion := ⟨.Published "0.210831.2033"⟩

/-- A concrete draft version record. -/
def dv0 : DandisetVersion := ⟨.Draft⟩

/-- A concrete backend environment for witness evaluation. -/
def b0 : Backends where
  dandisetGet := fun _ => .ok ds0
  allDandisets := [.ok ds0]
  allVersions := fun _ => [.ok pv0, .ok dv0]
  versionGet := fun _ _ => .ok dv0
  versionMetadata := fun _ _ => .ok ⟨"name: test"⟩
  versionRootChildren := fun _ _ => []
  versionResourceAt := fun _ _ _ => .error ⟨true⟩
  versionResourceWithChildrenAt := fun _ _ _ => .error ⟨true⟩
  zarrResource := fun _ => .error ⟨true⟩
  zarrResourceWithChildren := fun _ => .error ⟨true⟩
  zarrTopLevelDirs := .ok []
  renderCollection := fun _ => .ok "<html></html>"
  title := "dandidav"
  prefer_s3_redirects := false

/-- A path parser for witness evaluation that recognizes no path. -/
def pp0 : String → Option (DavPath × List String) := fun _ => none

/-! ## Lemmas about the path model -/

namespace PureDirPath

theorem stripSuffixSlash_append (t : List Char) :
    stripSuffixSlash (t ++ ['/']) = some t := by
  induction t with
  | nil => rfl
  | cons c t ih =>
    cases t with
    | nil => rfl
    | cons d t' =>
      simp only [List.cons_append] at ih ⊢
      simp only [stripSuffixSlash, ih, Option.map_some']

theorem eq_append_slash_of_strip :
    ∀ (s t : List Char), stripSuffixSlash s = some t → s = t ++ ['/'] := by
  intro s
  induction s with
  | nil => intro t h; simp [stripSuffixSlash] at h
  | cons c rest ih =>
    intro t h
    cases rest with
    | nil =>
      by_cases hc : c = '/'
      · subst hc
        simp [stripSuffixSlash] at h
        subst h
        rfl
      · simp [stripSuffixSlash, hc] at h
    | cons d t' =>
      simp only [stripSuffixSlash, Option.map_eq_some'] at h
      obtain ⟨u, hu, ht⟩ := h
      subst ht
      simp [ih u hu]

theorem splitSlash_ne_nil (t : List Char) : splitSlash t ≠ [] := by
  cases t with
  | nil => simp [splitSlash]
  | cons c rest =>
    simp only [splitSlash]
    by_cases hc : c = '/'
    · simp [hc]
    · simp only [if_neg hc]
      cases h : splitSlash rest <;> simp

theorem joinSegs_cons_of_ne (c : List Char) (cs : List (List Char)) (h : cs ≠ []) :
    joinSegs (c :: cs) = c ++ '/' :: joinSegs cs := by
  cases cs with
  | nil => exact absurd rfl h
  | cons d ds => rfl

theorem joinSegs_cons_cons (c : Char) (g : List Char) (gs : List (List Char)) :
    joinSegs ((c :: g) :: gs) = c :: joinSegs (g :: gs) := by
  cases gs with
  | nil => rfl
  | cons g' gs' => rfl

theorem joinSegs_splitSlash (t : List Char) : joinSegs (splitSlash t) = t := by
  induction t with
  | nil => rfl
  | cons c rest ih =>
    simp only [splitSlash]
    by_cases hc : c = '/'
    · subst hc
      rw [if_pos rfl, joinSegs_cons_of_ne _ _ (splitSlash_ne_nil rest), ih]
      rfl
    · rw [if_neg hc]
      cases h : splitSlash rest with
      | nil => exact absurd h (splitSlash_ne_nil rest)
      | cons g gs => rw [joinSegs_cons_cons, ← h, ih]

theorem not_slash_mem_splitSlash (t : List Char) : ∀ g ∈ splitSlash t, '/' ∉ g := by
  induction t with
  | nil =>
    intro g hg
    simp [splitSlash] at hg
    subst hg
    simp
  | cons c rest ih =>
    intro g hg
    simp only [splitSlash] at hg
    by_cases hc : c = '/'
    · rw [if_pos hc] at hg
      rcases List.mem_cons.mp hg with h | h
      · subst h; simp
      · exact ih g h
    · rw [if_neg hc] at hg
      cases h : splitSlash rest with
      | nil => exact absurd h (splitSlash_ne_nil rest)
      | cons g0 gs =>
        rw [h] at hg
        rcases List.mem_cons.mp hg with h1 | h1
        · subst h1
          intro hmem
          rcases List.mem_cons.mp hmem with h2 | h2
          · exact hc h2.symm
          · exact ih g0 (h ▸ List.mem_cons_self g0 gs) h2
        · exact ih g (h ▸ List.mem_cons_of_mem g0 h1)

theorem splitSlash_no_slash (u : List Char) (h : '/' ∉ u) : splitSlash u = [u] := by
  induction u with
  | nil => rfl
  | cons c rest ih =>
    have hc : c ≠ '/' := fun e => h (e ▸ List.mem_cons_self c rest)
    have hr : '/' ∉ rest := fun e => h (List.mem_cons_of_mem c e)
    simp only [splitSlash, if_neg hc, ih hr]

theorem splitSlash_append_slash (c t : List Char) (h : '/' ∉ c) :
    splitSlash (c ++ '/' :: t) = c :: splitSlash t := by
  induction c with
  | nil => simp [splitSlash]
  | cons a c' ih =>
    have ha : a ≠ '/' := fun e => h (e ▸ List.mem_cons_self a c')
    have hc' : '/' ∉ c' := fun e => h (List.mem_cons_of_mem a e)
    simp only [List.cons_append, splitSlash, if_neg ha, List.append_eq, ih hc']

theorem splitSlash_joinSegs :
    ∀ (cs : List (List Char)), cs ≠ [] → (∀ c ∈ cs, '/' ∉ c) →
      splitSlash (joinSegs cs) = cs := by
  intro cs
  induction cs with
  | nil => intro h _; exact absurd rfl h
  | cons c cs ih =>
    intro _ hn
    cases cs with
    | nil => simpa [joinSegs] using splitSlash_no_slash c (hn c (by simp))
    | cons d cs' =>
      rw [joinSegs_cons_of_ne c (d :: cs') (by simp),
        splitSlash_append_slash c _ (hn c (by simp)),
        ih (by simp) (fun x hx => hn x (List.mem_cons_of_mem c hx))]

theorem serializeDir_append (xs ys : List (List Char)) :
    serializeDir (xs ++ ys) = serializeDir xs ++ serializeDir ys := by
  induction xs with
  | nil => rfl
  | cons c xs ih => simp [serializeDir, ih]

theorem serializeDir_eq_joinSegs :
    ∀ (cs : List (List Char)), cs ≠ [] → serializeDir cs = joinSegs cs ++ ['/'] := by
  intro cs
  induction cs with
  | nil => intro h; exact absurd rfl h
  | cons c cs ih =>
    intro _
    cases cs with
    | nil => rfl
    | cons d cs' =>
      rw [joinSegs_cons_of_ne c (d :: cs') (by simp)]
      show c ++ '/' :: serializeDir (d :: cs') = (c ++ '/' :: joinSegs (d :: cs')) ++ ['/']
      rw [ih (by simp)]
      simp [List.append_assoc]

theorem mem_joinSegs (x : Char) (g : List Char) :
    ∀ (cs : List (List Char)), g ∈ cs → x ∈ g → x ∈ joinSegs cs := by
  intro cs
  induction cs with
  | nil => intro h _; cases h
  | cons c cs ih =>
    intro hg hx
    rcases List.mem_cons.mp hg with h | h
    · subst h
      cases cs with
      | nil => exact hx
      | cons d cs' =>
        rw [joinSegs_cons_of_ne _ _ (by simp)]
        exact List.mem_append_left _ hx
    · cases cs with
      | nil => cases h
      | cons d cs' =>
        rw [joinSegs_cons_of_ne _ _ (by simp)]
        exact List.mem_append_right _ (List.mem_cons_of_mem '/' (ih h hx))

theorem mem_serializeDir (x : Char) (hx : x ≠ '/') :
    ∀ (cs : List (List Char)), x ∈ serializeDir cs → ∃ c ∈ cs, x ∈ c := by
  intro cs
  induction cs with
  | nil => intro h; cases h
  | cons c cs ih =>
    intro h
    simp only [serializeDir] at h
    rcases List.mem_append.mp h with h1 | h1
    · exact ⟨c, List.mem_cons_self c cs, h1⟩
    · rcases List.mem_cons.mp h1 with h2 | h2
      · exact absurd h2 hx
      · obtain ⟨g, hg, hxg⟩ := ih h2
        exact ⟨g, List.mem_cons_of_mem c hg, hxg⟩

theorem serializeDir_ne_nil (cs : List (List Char)) (h : cs ≠ []) :
    serializeDir cs ≠ [] := by
  cases cs with
  | nil => exact absurd rfl h
  | cons c cs' => simp [serializeDir]

theorem head?_serializeDir_cons (b : Char) (c' : List Char) (cs : List (List Char)) :
    (serializeDir ((b :: c') :: cs)).head? = some b := rfl

/-- Parsing soundness: the serialization of any nonempty list of valid
segments is accepted unchanged by `from_str`. -/
theorem from_str_serializeDir (cs : List (List Char)) (h : validSegs cs) :
    from_str (serializeDir cs) = .ok (serializeDir cs) := by
  obtain ⟨h0, hseg⟩ := h
  have hnoslash : ∀ c ∈ cs, '/' ∉ c := fun c hc => (hseg c hc).2.1
  have hser : serializeDir cs = joinSegs cs ++ ['/'] := serializeDir_eq_joinSegs cs h0
  have hstrip : stripSuffixSlash (serializeDir cs) = some (joinSegs cs) := by
    rw [hser]; exact stripSuffixSlash_append _
  have hsplit : splitSlash (joinSegs cs) = cs := splitSlash_joinSegs cs h0 hnoslash
  have hhead : ¬ (serializeDir cs).head? = some '/' := by
    cases cs with
    | nil => exact absurd rfl h0
    | cons c cs' =>
      cases c with
      | nil => exact absurd rfl (hseg [] (List.mem_cons_self _ _)).1
      | cons b c'' =>
        rw [head?_serializeDir_cons]
        intro he
        have hb : b = '/' := by injection he
        exact (hseg (b :: c'') (List.mem_cons_self _ _)).2.1
          (hb ▸ List.mem_cons_self b c'')
  have hnul : nulChar ∉ serializeDir cs := by
    intro hmem
    have hne : nulChar ≠ '/' := by decide
    obtain ⟨c, hc, hxc⟩ := mem_serializeDir nulChar hne cs hmem
    exact (hseg c hc).2.2.1 hxc
  have hall : ∀ x ∈ splitSlash (joinSegs cs), ¬x = [] ∧ ¬x = ['.'] ∧ ¬x = ['.', '.'] := by
    rw [hsplit]
    intro p hp
    obtain ⟨hne, -, -, hd1, hd2⟩ := hseg p hp
    exact ⟨hne, hd1, hd2⟩
  simp [from_str, hstrip, hhead, hnul]
  exact hall

/-- Parsing completeness: any string accepted by `from_str` is the
serialization of the nonempty list of valid segments obtained by splitting
its pre-slash prefix. -/
theorem valid_split (s : List Char) (h : Valid s) :
    validSegs (splitSlash s.dropLast) ∧ s = serializeDir (splitSlash s.dropLast) := by
  unfold Valid from_str at h
  cases hstrip : stripSuffixSlash s with
  | none => rw [hstrip] at h; cases h
  | some pre =>
    rw [hstrip] at h
    have hs : s = pre ++ ['/'] := eq_append_slash_of_strip s pre hstrip
    have hdrop : s.dropLast = pre := by rw [hs]; exact List.dropLast_concat
    have h' : (if s.head? = some '/' then Except.error ParseErr.StartsWithSlash
        else if nulChar ∈ s then Except.error ParseErr.Nul
        else if ((splitSlash pre).any
            fun p => decide (p = [] ∨ p = ['.'] ∨ p = ['.', '.'])) = true then
          Except.error ParseErr.NotNormalized
        else Except.ok s) = Except.ok s := h
    clear h
    by_cases h1 : s.head? = some '/'
    · rw [if_pos h1] at h'; cases h'
    rw [if_neg h1] at h'
    by_cases h2 : nulChar ∈ s
    · rw [if_pos h2] at h'; cases h'
    rw [if_neg h2] at h'
    by_cases h3 : (splitSlash pre).any
        (fun p => decide (p = [] ∨ p = ['.'] ∨ p = ['.', '.'])) = true
    · rw [if_pos h3] at h'; cases h'
    rw [if_neg h3] at h'
    have h3' : (splitSlash pre).any
        (fun p => decide (p = [] ∨ p = ['.'] ∨ p = ['.', '.'])) = false := by
      simpa using h3
    have hjoin : joinSegs (splitSlash pre) = pre := joinSegs_splitSlash pre
    have hne : splitSlash pre ≠ [] := splitSlash_ne_nil pre
    have hser : serializeDir (splitSlash pre) = s := by
      rw [serializeDir_eq_joinSegs _ hne, hjoin, hs]
    have hbad : ∀ p ∈ splitSlash pre, ¬ (p = [] ∨ p = ['.'] ∨ p = ['.', '.']) := by
      intro p hp
      have := List.any_eq_false.mp h3' p hp
      simpa using this
    have hsegs : ∀ c ∈ splitSlash pre, validSeg c := by
      intro c hc
      have hb := hbad c hc
      push_neg at hb
      refine ⟨hb.1, not_slash_mem_splitSlash pre c hc, ?_, hb.2.1, hb.2.2⟩
      intro hmem
      exact h2 (hs ▸ List.mem_append_left ['/']
        (hjoin ▸ mem_joinSegs nulChar c (splitSlash pre) hc hmem))
    rw [hdrop]
    exact ⟨⟨hne, hsegs⟩, hser.symm⟩

/-- The characterization of validity: a string is a valid `PureDirPath`
exactly when it serializes a nonempty list of valid segments. -/
theorem valid_iff (s : List Char) :
    Valid s ↔ ∃ cs, validSegs cs ∧ s = serializeDir cs := by
  constructor
  · intro h
    exact ⟨splitSlash s.dropLast, (valid_split s h).1, (valid_split s h).2⟩
  · rintro ⟨cs, hcs, rfl⟩
    exact from_str_serializeDir cs hcs

theorem trimEndSlashes_append_slash (u : List Char) :
    trimEndSlashes (u ++ ['/']) = trimEndSlashes u := by
  induction u with
  | nil => rfl
  | cons c u ih => simp only [List.cons_append, List.append_eq, trimEndSlashes, ih]

theorem trimEndSlashes_of_last_ne (v : List Char) (a : Char) (ha : a ≠ '/') :
    trimEndSlashes (v ++ [a]) = v ++ [a] := by
  induction v with
  | nil => simp [trimEndSlashes, ha]
  | cons c v ih =>
    simp only [List.cons_append, List.append_eq, trimEndSlashes, ih]
    cases hv : v ++ [a] with
    | nil => simp at hv
    | cons x xs => rfl

theorem rfindSlash_eq_none (v : List Char) (h : '/' ∉ v) : rfindSlash v = none := by
  induction v with
  | nil => rfl
  | cons c v ih =>
    have hc : c ≠ '/' := fun e => h (e ▸ List.mem_cons_self c v)
    have hv : '/' ∉ v := fun e => h (List.mem_cons_of_mem c e)
    simp [rfindSlash, ih hv, hc]

theorem rfindSlash_append_of_no_slash (u v : List Char) (h : '/' ∉ v) :
    rfindSlash (u ++ v) = rfindSlash u := by
  induction u with
  | nil => simpa [rfindSlash] using rfindSlash_eq_none v h
  | cons c u ih => simp only [List.cons_append, List.append_eq, rfindSlash, ih]

theorem rfindSlash_append_slash (u : List Char) :
    rfindSlash (u ++ ['/']) = some u.length := by
  induction u with
  | nil => rfl
  | cons c u ih => simp [List.cons_append, rfindSlash, ih]

theorem take_len_append {α : Type} (u v : List α) : (u ++ v).take u.length = u := by
  induction u with
  | nil => rfl
  | cons a u ih => simp [ih]

theorem parent_serializeDir_single (c : List Char) (h : validSeg c) :
    parent (serializeDir [c]) = none := by
  obtain ⟨h0, hs, -, -, -⟩ := h
  obtain ⟨c', a, rfl⟩ : ∃ c' a, c = c' ++ [a] := by
    rcases List.eq_nil_or_concat c with h | ⟨c', a, h⟩
    · exact absurd h h0
    · exact ⟨c', a, by simpa [List.concat_eq_append] using h⟩
  have ha : a ≠ '/' := fun e => hs (e ▸ List.mem_append_right c' (by simp))
  have h1 : serializeDir [c' ++ [a]] = (c' ++ [a]) ++ ['/'] := rfl
  unfold parent
  rw [h1, trimEndSlashes_append_slash, trimEndSlashes_of_last_ne c' a ha,
    rfindSlash_eq_none _ hs]

theorem parent_serializeDir_multi (cs : List (List Char)) (c : List Char)
    (h0 : cs ≠ []) (hc : validSeg c) :
    parent (serializeDir (cs ++ [c])) = some (serializeDir cs) := by
  obtain ⟨hne, hs, -, -, -⟩ := hc
  obtain ⟨c', a, rfl⟩ : ∃ c' a, c = c' ++ [a] := by
    rcases List.eq_nil_or_concat c with h | ⟨c', a, h⟩
    · exact absurd h hne
    · exact ⟨c', a, by simpa [List.concat_eq_append] using h⟩
  have ha : a ≠ '/' := fun e => hs (e ▸ List.mem_append_right c' (by simp))
  have hser : serializeDir (cs ++ [c' ++ [a]]) =
      serializeDir cs ++ ((c' ++ [a]) ++ ['/']) := by
    rw [serializeDir_append]; rfl
  have htrim : trimEndSlashes (serializeDir cs ++ ((c' ++ [a]) ++ ['/'])) =
      serializeDir cs ++ (c' ++ [a]) := by
    have he : serializeDir cs ++ ((c' ++ [a]) ++ ['/']) =
        (serializeDir cs ++ (c' ++ [a])) ++ ['/'] := by
      simp [List.append_assoc]
    rw [he, trimEndSlashes_append_slash]
    have he2 : serializeDir cs ++ (c' ++ [a]) = (serializeDir cs ++ c') ++ [a] := by
      simp [List.append_assoc]
    rw [he2, trimEndSlashes_of_last_ne _ a ha]
  have hrf : rfindSlash (serializeDir cs ++ (c' ++ [a])) =
      some (joinSegs cs).length := by
    rw [rfindSlash_append_of_no_slash _ _ hs, serializeDir_eq_joinSegs cs h0,
      rfindSlash_append_slash]
  unfold parent
  rw [hser, htrim, hrf]
  show some (List.take ((joinSegs cs).length + 1)
      (serializeDir cs ++ ((c' ++ [a]) ++ ['/']))) = some (serializeDir cs)
  have hlen : (joinSegs cs).length + 1 = (serializeDir cs).length := by
    rw [serializeDir_eq_joinSegs cs h0]; simp
  rw [hlen, take_len_append]

theorem removeLead_eq_some :
    ∀ (p q r : List Char), removeLead p q = some r ↔ q = p ++ r := by
  intro p
  induction p with
  | nil => intro q r; simp [removeLead]
  | cons a p ih =>
    intro q r
    cases q with
    | nil =>
      simp only [removeLead, List.nil_eq, List.cons_append]
      constructor
      · intro h; cases h
      · intro h; cases h
    | cons b q' =>
      by_cases hab : a = b
      · subst hab
        simp [removeLead, ih]
      · rw [removeLead, if_neg hab]
        constructor
        · intro h; cases h
        · intro h
          rw [List.cons_append] at h
          exact absurd (List.head_eq_of_cons_eq h).symm hab

theorem removeLead_self (p : List Char) : removeLead p p = some [] := by
  rw [removeLead_eq_some]
  simp

theorem append_slash_cons_inj :
    ∀ (a b x y : List Char), '/' ∉ a → '/' ∉ b →
      a ++ '/' :: x = b ++ '/' :: y → a = b ∧ x = y := by
  intro a
  induction a with
  | nil =>
    intro b x y _ hb h
    cases b with
    | nil => simpa using h
    | cons b0 b' =>
      rw [List.nil_append, List.cons_append] at h
      have h1 := List.head_eq_of_cons_eq h
      exact absurd h1.symm (fun e => hb (e ▸ List.mem_cons_self b0 b'))
  | cons a0 a' ih =>
    intro b x y ha hb h
    cases b with
    | nil =>
      rw [List.nil_append, List.cons_append] at h
      have h1 := List.head_eq_of_cons_eq h
      exact absurd h1 (fun e => ha (e ▸ List.mem_cons_self a0 a'))
    | cons b0 b' =>
      rw [List.cons_append, List.cons_append] at h
      have h1 := List.head_eq_of_cons_eq h
      have h2 := List.tail_eq_of_cons_eq h
      have ha' : '/' ∉ a' := fun e => ha (List.mem_cons_of_mem a0 e)
      have hb' : '/' ∉ b' := fun e => hb (List.mem_cons_of_mem b0 e)
      obtain ⟨he, hxy⟩ := ih b' x y ha' hb' h2
      exact ⟨by rw [h1, he], hxy⟩

theorem serializeDir_append_eq (ds : List (List Char)) :
    ∀ (cs : List (List Char)) (r : List Char),
      (∀ d ∈ ds, '/' ∉ d) → (∀ c ∈ cs, '/' ∉ c) →
      serializeDir ds ++ r = serializeDir cs →
      ∃ es, cs = ds ++ es ∧ r = serializeDir es := by
  induction ds with
  | nil =>
    intro cs r _ _ h
    exact ⟨cs, rfl, by simpa using h⟩
  | cons d ds ih =>
    intro cs r hd hc h
    cases cs with
    | nil =>
      exfalso
      have hne : serializeDir (d :: ds) ++ r ≠ [] := by
        simp [serializeDir]
      exact hne h
    | cons c cs' =>
      have h' : d ++ '/' :: (serializeDir ds ++ r) = c ++ '/' :: serializeDir cs' := by
        have : serializeDir (d :: ds) ++ r = d ++ '/' :: (serializeDir ds ++ r) := by
          simp [serializeDir]
        rw [← this, h]
        rfl
      obtain ⟨hdc, h2⟩ := append_slash_cons_inj d c _ _
        (hd d (List.mem_cons_self d ds)) (hc c (List.mem_cons_self c cs')) h'
      obtain ⟨es, h3, h4⟩ := ih cs' r
        (fun x hx => hd x (List.mem_cons_of_mem d hx))
        (fun x hx => hc x (List.mem_cons_of_mem c hx)) h2
      exact ⟨es, by rw [hdc, h3]; rfl, h4⟩

theorem validSegs_append (cs ds : List (List Char)) (h1 : validSegs cs)
    (h2 : validSegs ds) : validSegs (cs ++ ds) := by
  refine ⟨by simp [h1.1], ?_⟩
  intro c hc
  rcases List.mem_append.mp hc with h | h
  · exact h1.2 c h
  · exact h2.2 c h

theorem valid_decomp (s : List Char) (h : Valid s) :
    ∃ cs' c, validSegs (cs' ++ [c]) ∧ splitSlash s.dropLast = cs' ++ [c] ∧
      s = serializeDir (cs' ++ [c]) := by
  obtain ⟨⟨hne, hsegs⟩, hs⟩ := valid_split s h
  rcases List.eq_nil_or_concat (splitSlash s.dropLast) with h0 | ⟨cs', c, hcc⟩
  · exact absurd h0 hne
  · have hcc' : splitSlash s.dropLast = cs' ++ [c] := by
      simpa [List.concat_eq_append] using hcc
    refine ⟨cs', c, ?_, hcc', ?_⟩
    · rw [← hcc']; exact ⟨hne, hsegs⟩
    · rw [← hcc']; exact hs

theorem parent_valid_eq (cs' : List (List Char)) (c : List Char)
    (h : validSegs (cs' ++ [c])) :
    parent (serializeDir (cs' ++ [c])) =
      if cs' = [] then none else some (serializeDir cs') := by
  have hc : validSeg c := h.2 c (by simp)
  cases cs' with
  | nil => simpa using parent_serializeDir_single c hc
  | cons d cs'' =>
    have hm := parent_serializeDir_multi (d :: cs'') c (by simp) hc
    simpa using hm

/-- Validity is preserved by `parent`. -/
theorem valid_parent (p r : List Char) (hp : Valid p) (h : parent p = some r) :
    Valid r := by
  obtain ⟨cs', c, hv, -, hs⟩ := valid_decomp p hp
  rw [hs, parent_valid_eq cs' c hv] at h
  cases hcs : cs' with
  | nil => rw [hcs] at h; simp at h
  | cons d cs'' =>
    rw [hcs] at h
    simp at h
    subst h
    apply from_str_serializeDir
    refine ⟨by simp, ?_⟩
    intro x hx
    exact hv.2 x (by rw [hcs] at hv ⊢; exact List.mem_append_left [c] hx)

/-- Validity is preserved by `relative_to`. -/
theorem valid_relative_to (p q r : List Char) (hp : Valid p) (hq : Valid q)
    (h : relative_to q p = some r) : Valid r := by
  unfold relative_to at h
  cases hm : removeLead p q with
  | none => rw [hm] at h; cases h
  | some s =>
    rw [hm] at h
    have h2 : (if s = [] then (none : Option (List Char)) else some s) = some r := h
    clear h
    by_cases hs : s = []
    · rw [if_pos hs] at h2; cases h2
    rw [if_neg hs] at h2
    have hr : r = s := by injection h2 with h'; exact h'.symm
    rw [hr]
    have hq' : q = p ++ s := (removeLead_eq_some p q s).mp hm
    obtain ⟨ds, hds, hpd⟩ := (valid_iff p).mp hp
    obtain ⟨cs, hcs, hqc⟩ := (valid_iff q).mp hq
    have heq : serializeDir ds ++ s = serializeDir cs := by
      rw [← hpd, ← hqc]; exact hq'.symm
    obtain ⟨es, hes, hse⟩ := serializeDir_append_eq ds cs s
      (fun d hd => (hds.2 d hd).2.1) (fun c hc => (hcs.2 c hc).2.1) heq
    have hesne : es ≠ [] := by
      intro h0
      rw [h0] at hse
      exact hs hse
    rw [hse]
    apply from_str_serializeDir
    refine ⟨hesne, ?_⟩
    intro x hx
    exact hcs.2 x (hes ▸ List.mem_append_right ds hx)

end PureDirPath

/-! ## Lemmas about the WebDAV layer -/

theorem into_vec_length (r : DavResourceWithChildren) :
    r.into_vec.length = 1 + r.numChildren := by
  cases r with
  | Collection col children =>
    simp [DavResourceWithChildren.into_vec, DavResourceWithChildren.numChildren,
      Nat.add_comm]
  | Item i =>
    simp [DavResourceWithChildren.into_vec, DavResourceWithChildren.numChildren]

theorem releaseChildren_map_ok (dandiset_id : String) (vs : List DandisetVersion) :
    DandiDav.releaseChildren dandiset_id (vs.map Except.ok) =
      .ok (vs.filterMap (fun v =>
        match v.version with
        | VersionId.Published pvid =>
          some (DavResource.Collection (DavCollection.dandiset_version v
            (version_path dandiset_id (VersionSpec.Published pvid))))
        | VersionId.Draft => none)) := by
  induction vs with
  | nil => rfl
  | cons v vs ih =>
    cases hv : v.version with
    | Published pvid =>
      simp [DandiDav.releaseChildren, hv, ih, List.filterMap_cons, Except.map]
    | Draft =>
      simp [DandiDav.releaseChildren, hv, ih, List.filterMap_cons, Except.map]

/-! ## Claim theorems -/

/-- C1: a `PROPFIND` with `Depth: 0` produces a 207 multistatus holding
exactly the one `<response>` built from `get_resource`; with `Depth: 1` it
holds `1 + numChildren` responses, the flattened `[self] ++ children` of
`get_resource_with_children`; any other `Depth` value is answered with a
client error whose value is the same for every backend, i.e. before any
backend is invoked. -/
theorem propfind_depth_behavior (b : Backends) (path : DavPath) (query : PropFind)
    (d : String) :
    (∀ r, parseDepth d = some FiniteDepth.Zero →
      DandiDav.get_resource b path = .ok r →
      DandiDav.propfindEntry b path d (some query) =
        .ok ⟨207, [("Content-Type", DAV_XML_CONTENT_TYPE)],
          .multistatus ⟨[query.find r]⟩⟩) ∧
    (∀ rwc, parseDepth d = some FiniteDepth.One →
      DandiDav.get_resource_with_children b path = .ok rwc →
      ∃ ms : Multistatus,
        DandiDav.propfindEntry b path d (some query) =
          .ok ⟨207, [("Content-Type", DAV_XML_CONTENT_TYPE)], .multistatus ms⟩ ∧
        ms.response.length = 1 + rwc.numChildren) ∧
    (parseDepth d = none →
      ∀ b2 : Backends, DandiDav.propfindEntry b2 path d (some query) =
        .ok bad_request_resp) := by
  refine ⟨?_, ?_, ?_⟩
  · intro r hd hr
    simp [DandiDav.propfindEntry, hd, DandiDav.propfind, hr, Except.map]
  · intro rwc hd hrwc
    refine ⟨⟨rwc.into_vec.map (fun r => query.find r)⟩, ?_, ?_⟩
    · simp [DandiDav.propfindEntry, hd, DandiDav.propfind, hrwc, Except.map]
    · simp [into_vec_length rwc]
  · intro hd b2
    simp [DandiDav.propfindEntry, hd]

/-- Witness for C1 at the root address with concrete `Depth` headers. -/
theorem propfind_depth_behavior_witness :
    DandiDav.propfindEntry b0 DavPath.Root "0" (some PropFind.allprop) =
      .ok ⟨207, [("Content-Type", DAV_XML_CONTENT_TYPE)],
        .multistatus ⟨[PropFind.allprop.find DavResource.rootRes]⟩⟩ ∧
    (∃ ms : Multistatus,
      DandiDav.propfindEntry b0 DavPath.Root "1" (some PropFind.allprop) =
        .ok ⟨207, [("Content-Type", DAV_XML_CONTENT_TYPE)], .multistatus ms⟩ ∧
      ms.response.length = 1 + DavResourceWithChildren.root.numChildren) ∧
    DandiDav.propfindEntry b0 DavPath.Root "infinity" (some PropFind.allprop) =
      .ok bad_request_resp := by
  refine ⟨?_, ?_, ?_⟩
  · exact (propfind_depth_behavior b0 DavPath.Root PropFind.allprop "0").1
      DavResource.rootRes (by decide) rfl
  · exact (propfind_depth_behavior b0 DavPath.Root PropFind.allprop "1").2.1
      DavResourceWithChildren.root (by decide) rfl
  · exact (propfind_depth_behavior b0 DavPath.Root PropFind.allprop "infinity").2.2
      (by decide) b0

/-- C2: with the dandiset metadata fetched successfully, resolving `Latest`
fails with `NoLatestVersion` exactly when the metadata has no
most-recently-published version; that error is always classified not-found
and is answered with the 404 response, not a 500. -/
theorem latest_version_not_found (b : Backends) (dandiset_id : String) (ds : Dandiset)
    (h : b.dandisetGet dandiset_id = .ok ds) :
    (DandiDav.get_version_handler b dandiset_id VersionSpec.Latest =
        .error (DavError.NoLatestVersion dandiset_id) ↔
      ds.most_recent_published_version = none) ∧
    DavError.is_404 (DavError.NoLatestVersion dandiset_id) = true ∧
    DandiDav.errorResponse (DavError.NoLatestVersion dandiset_id) = not_found_resp := by
  refine ⟨?_, rfl, rfl⟩
  unfold DandiDav.get_version_handler
  simp only [h, Except.mapError]
  cases hm : ds.most_recent_published_version with
  | none => simp [hm]
  | some v => simp [hm]

/-- Witness for C2 on a dandiset with no published version. -/
theorem latest_version_not_found_witness :
    DandiDav.get_version_handler b0 "000001" VersionSpec.Latest =
      .error (DavError.NoLatestVersion "000001") ∧
    DavError.is_404 (DavError.NoLatestVersion "000001") = true := by
  have h := latest_version_not_found b0 "000001" ds0 rfl
  exact ⟨h.1.mpr rfl, h.2.1⟩

/-- C3: the children of a `Dandiset{id}` collection always include the
`draft` child; when a most-recently-published version exists they are
exactly `[draft, latest, releases]` in that order, and otherwise exactly
`[draft]`. -/
theorem dandiset_children_shape (b : Backends) (dandiset_id : String) (ds : Dandiset)
    (h : b.dandisetGet dandiset_id = .ok ds) :
    (∀ col children,
      DandiDav.get_resource_with_children b (DavPath.Dandiset dandiset_id) =
        .ok (.Collection col children) →
      DavResource.Collection (DavCollection.dandiset_version ds.draft_version
        (version_path dandiset_id VersionSpec.Draft)) ∈ children) ∧
    (∀ v, ds.most_recent_published_version = some v →
      DandiDav.get_resource_with_children b (DavPath.Dandiset dandiset_id) =
        .ok (.Collection
          (DavCollection.ofDandiset { ds with most_recent_published_version := none })
          [.Collection (DavCollection.dandiset_version ds.draft_version
              (version_path dandiset_id VersionSpec.Draft)),
           .Collection (DavCollection.dandiset_version v
              (version_path dandiset_id VersionSpec.Latest)),
           .Collection (DavCollection.dandiset_releases dandiset_id)])) ∧
    (ds.most_recent_published_version = none →
      DandiDav.get_resource_with_children b (DavPath.Dandiset dandiset_id) =
        .ok (.Collection (DavCollection.ofDandiset ds)
          [.Collection (DavCollection.dandiset_version ds.draft_version
              (version_path dandiset_id VersionSpec.Draft))])) := by
  refine ⟨?_, ?_, ?_⟩
  · intro col children heq
    cases hm : ds.most_recent_published_version with
    | some v =>
      have hres : DandiDav.get_resource_with_children b (DavPath.Dandiset dandiset_id) =
          .ok (.Collection
            (DavCollection.ofDandiset { ds with most_recent_published_version := none })
            [.Collection (DavCollection.dandiset_version ds.draft_version
                (version_path dandiset_id VersionSpec.Draft)),
             .Collection (DavCollection.dandiset_version v
                (version_path dandiset_id VersionSpec.Latest)),
             .Collection (DavCollection.dandiset_releases dandiset_id)]) := by
        simp [DandiDav.get_resource_with_children, h, hm, Except.mapError, Except.bind]
      rw [hres] at heq
      simp only [Except.ok.injEq, DavResourceWithChildren.Collection.injEq] at heq
      rw [← heq.2]
      simp
    | none =>
      have hres : DandiDav.get_resource_with_children b (DavPath.Dandiset dandiset_id) =
          .ok (.Collection
            (DavCollection.ofDandiset { ds with most_recent_published_version := none })
            [.Collection (DavCollection.dandiset_version ds.draft_version
                (version_path dandiset_id VersionSpec.Draft))]) := by
        simp [DandiDav.get_resource_with_children, h, hm, Except.mapError, Except.bind]
      rw [hres] at heq
      simp only [Except.ok.injEq, DavResourceWithChildren.Collection.injEq] at heq
      rw [← heq.2]
      simp
  · intro v hm
    simp [DandiDav.get_resource_with_children, h, hm, Except.mapError, Except.bind]
  · intro hm
    have hds : { ds with most_recent_published_version := none } = ds := by
      obtain ⟨i, dv, m⟩ := ds
      simp only at hm
      rw [hm]
    simp [DandiDav.get_resource_with_children, h, hm, hds, Except.mapError, Except.bind]

/-- Witness for C3 on a dandiset without a published version. -/
theorem dandiset_children_shape_witness :
    DandiDav.get_resource_with_children b0 (DavPath.Dandiset "000001") =
      .ok (.Collection (DavCollection.ofDandiset ds0)
        [.Collection (DavCollection.dandiset_version ds0.draft_version
            (version_path "000001" VersionSpec.Draft))]) :=
  (dandiset_children_shape b0 "000001" ds0 rfl).2.2 rfl

/-- C4: for a backend version stream that yields the versions `vs` without
error, the children of `DandisetReleases{id}` are exactly the `Published`
versions of `vs`, in stream order, each addressed under its concrete
published version id. -/
theorem releases_children_published_only (b : Backends) (dandiset_id : String)
    (vs : List DandisetVersion) (h : b.allVersions dandiset_id = vs.map Except.ok) :
    DandiDav.get_resource_with_children b (DavPath.DandisetReleases dandiset_id) =
      .ok (.Collection (DavCollection.dandiset_releases dandiset_id)
        (vs.filterMap (fun v =>
          match v.version with
          | VersionId.Published pvid =>
            some (DavResource.Collection (DavCollection.dandiset_version v
              (version_path dandiset_id (VersionSpec.Published pvid))))
          | VersionId.Draft => none))) := by
  simp [DandiDav.get_resource_with_children, h, releaseChildren_map_ok, Except.map]

/-- Witness for C4 on a stream holding one published and one draft version. -/
theorem releases_children_published_only_witness :
    DandiDav.get_resource_with_children b0 (DavPath.DandisetReleases "000001") =
      .ok (.Collection (DavCollection.dandiset_releases "000001")
        [DavResource.Collection (DavCollection.dandiset_version pv0
          (version_path "000001" (VersionSpec.Published "0.210831.2033")))]) := by
  have h := releases_children_published_only b0 "000001" [pv0, dv0] rfl
  exact h.trans (by decide)

/-- C5 counterexample: the input `"a\x00"` contains NUL yet parsing fails
with `NotDir`, not `Nul` — the NUL rejection is not applied before the
trailing-slash check. -/
theorem nul_priority_counterexample :
    PureDirPath.nulChar ∈ ['a', PureDirPath.nulChar] ∧
    PureDirPath.from_str ['a', PureDirPath.nulChar] =
      .error PureDirPath.ParseErr.NotDir ∧
    PureDirPath.ParseErr.NotDir ≠ PureDirPath.ParseErr.Nul := by decide

/-- C5 (amended): a NUL-containing input fails with the NUL error kind only
after the trailing-slash and leading-slash checks pass — every input that
ends with `/`, does not start with `/`, and contains NUL fails with `Nul`. -/
theorem nul_error_after_slash_checks (s : List Char)
    (hend : PureDirPath.stripSuffixSlash s ≠ none)
    (hstart : ¬ s.head? = some '/')
    (hnul : PureDirPath.nulChar ∈ s) :
    PureDirPath.from_str s = .error PureDirPath.ParseErr.Nul := by
  cases hstrip : PureDirPath.stripSuffixSlash s with
  | none => exact absurd hstrip hend
  | some pre => simp [PureDirPath.from_str, hstrip, hstart, hnul]

/-- Witness for the amended C5. -/
theorem nul_error_after_slash_checks_witness :
    PureDirPath.from_str ['a', PureDirPath.nulChar, '/'] =
      .error PureDirPath.ParseErr.Nul :=
  nul_error_after_slash_checks ['a', PureDirPath.nulChar, '/'] (by decide) (by decide)
    (by decide)

/-- C6: `relative_to` returns `None` on equal paths and on non-proper
prefixes, and any suffix it returns is exact: joining it back onto the
prefix reproduces the original path. -/
theorem relative_to_spec (p q : List Char) (hp : PureDirPath.Valid p)
    (hq : PureDirPath.Valid q) :
    (q = p → PureDirPath.relative_to q p = none) ∧
    (¬ (p ≠ q ∧ ∃ r, q = p ++ r) → PureDirPath.relative_to q p = none) ∧
    (∀ r, PureDirPath.relative_to q p = some r → PureDirPath.join_dir p r = q) := by
  refine ⟨?_, ?_, ?_⟩
  · rintro rfl
    simp [PureDirPath.relative_to, PureDirPath.removeLead_self]
  · intro hnot
    cases hm : PureDirPath.removeLead p q with
    | none => simp [PureDirPath.relative_to, hm]
    | some s =>
      have hq' : q = p ++ s := (PureDirPath.removeLead_eq_some p q s).mp hm
      by_cases hs : s = []
      · simp [PureDirPath.relative_to, hm, hs]
      · exfalso
        apply hnot
        refine ⟨?_, s, hq'⟩
        intro hpq
        apply hs
        have h2 : p ++ s = p := by rw [← hq', ← hpq]
        have h3 := congrArg List.length h2
        simp at h3
        exact h3
  · intro r h
    cases hm : PureDirPath.removeLead p q with
    | none => rw [PureDirPath.relative_to, hm] at h; cases h
    | some s =>
      rw [PureDirPath.relative_to, hm] at h
      have h2 : (if s = [] then (none : Option (List Char)) else some s) = some r := h
      by_cases hs : s = []
      · rw [if_pos hs] at h2; cases h2
      · rw [if_neg hs] at h2
        have h3 : s = r := by injection h2
        rw [← h3]
        exact ((PureDirPath.removeLead_eq_some p q s).mp hm).symm

/-- Witness for C6 on concrete paths. -/
theorem relative_to_spec_witness :
    PureDirPath.relative_to ['a', '/'] ['a', '/'] = none ∧
    PureDirPath.relative_to ['a', '/'] ['b', '/'] = none ∧
    PureDirPath.join_dir ['a', '/'] ['b', '/'] = ['a', '/', 'b', '/'] := by
  refine ⟨?_, ?_, ?_⟩
  · exact (relative_to_spec ['a', '/'] ['a', '/'] (by decide) (by decide)).1 rfl
  · exact (relative_to_spec ['b', '/'] ['a', '/'] (by decide) (by decide)).2.1
      (by rintro ⟨-, r, h⟩; simp at h)
  · exact (relative_to_spec ['a', '/'] ['a', '/', 'b', '/'] (by decide) (by decide)).2.2
      ['b', '/'] (by decide)

/-- C7: `parent` returns `None` exactly when the path has one segment, and
on a path of two or more segments it strips exactly the final segment. -/
theorem parent_none_iff_single_segment (s : List Char) (h : PureDirPath.Valid s) :
    (PureDirPath.parent s = none ↔
      (PureDirPath.splitSlash s.dropLast).length = 1) ∧
    (2 ≤ (PureDirPath.splitSlash s.dropLast).length →
      PureDirPath.parent s =
        some (PureDirPath.serializeDir
          (PureDirPath.splitSlash s.dropLast).dropLast)) := by
  obtain ⟨cs', c, hv, hsplit, hs⟩ := PureDirPath.valid_decomp s h
  have hp : PureDirPath.parent s =
      if cs' = [] then none else some (PureDirPath.serializeDir cs') := by
    rw [hs]; exact PureDirPath.parent_valid_eq cs' c hv
  rw [hsplit]
  constructor
  · rw [hp]
    cases cs' with
    | nil => simp
    | cons d cs'' => simp
  · intro h2
    rw [hp, List.dropLast_concat]
    cases cs' with
    | nil => exact absurd h2 (by simp)
    | cons d cs'' => simp

/-- Witness for C7 on a two-segment path. -/
theorem parent_none_iff_single_segment_witness :
    PureDirPath.parent ['a', '/', 'b', '/'] = some ['a', '/'] := by
  have h := (parent_none_iff_single_segment ['a', '/', 'b', '/'] (by decide)).2
    (by decide)
  exact h.trans (by decide)

/-- C8: parsing never alters the accepted string — the parsed value is the
input itself, so serialization round-trips exactly. -/
theorem parse_roundtrip (s t : List Char)
    (h : PureDirPath.from_str s = .ok t) : t = s := by
  unfold PureDirPath.from_str at h
  cases hstrip : PureDirPath.stripSuffixSlash s with
  | none => rw [hstrip] at h; cases h
  | some pre =>
    rw [hstrip] at h
    have h' : (if s.head? = some '/' then
          Except.error PureDirPath.ParseErr.StartsWithSlash
        else if PureDirPath.nulChar ∈ s then Except.error PureDirPath.ParseErr.Nul
        else if ((PureDirPath.splitSlash pre).any
            fun p => decide (p = [] ∨ p = ['.'] ∨ p = ['.', '.'])) = true then
          Except.error PureDirPath.ParseErr.NotNormalized
        else Except.ok s) = Except.ok t := h
    clear h
    split_ifs at h' with h1 h2 h3
    exact (Except.ok.inj h').symm

/-- Witness for C8. -/
theorem parse_roundtrip_witness :
    PureDirPath.from_str ['a', '/'] = .ok ['a', '/'] ∧ (['a', '/'] : List Char) = ['a', '/'] :=
  ⟨by decide, parse_roundtrip ['a', '/'] ['a', '/'] (by decide)⟩

/-- C9: every response of `handle_request` carries the two fixed WebDAV
headers; an `OPTIONS` request is answered 204 with no body; any verb other
than `GET`, `OPTIONS` and (case-insensitive) `PROPFIND` is answered 405. -/
theorem webdav_headers_options_and_405
    (parsePath : String → Option (DavPath × List String)) (b : Backends)
    (req : Request) :
    (("Allow", "GET, HEAD, OPTIONS, PROPFIND") ∈
        (DandiDav.handle_request parsePath b req).headers ∧
      ("DAV", "1, 3") ∈ (DandiDav.handle_request parsePath b req).headers) ∧
    (req.method = "OPTIONS" →
      (DandiDav.handle_request parsePath b req).status = 204 ∧
      (DandiDav.handle_request parsePath b req).body = HttpBody.empty) ∧
    (req.method ≠ "GET" → req.method ≠ "OPTIONS" →
      eqIgnoreAsciiCase req.method "PROPFIND" = false →
      (DandiDav.handle_request parsePath b req).status = 405) := by
  refine ⟨⟨?_, ?_⟩, ?_, ?_⟩
  · simp [DandiDav.handle_request, WEBDAV_RESPONSE_HEADERS]
  · simp [DandiDav.handle_request, WEBDAV_RESPONSE_HEADERS]
  · intro h
    simp [DandiDav.handle_request, DandiDav.inner_handle_request, h]
  · intro h1 h2 h3
    simp [DandiDav.handle_request, DandiDav.inner_handle_request, h1, h2, h3]

/-- Witness for C9 on concrete `OPTIONS` and `DELETE` requests. -/
theorem webdav_headers_options_and_405_witness :
    (DandiDav.handle_request pp0 b0 ⟨"OPTIONS", "/", "0", none⟩).status = 204 ∧
    (DandiDav.handle_request pp0 b0 ⟨"DELETE", "/", "0", none⟩).status = 405 ∧
    ("DAV", "1, 3") ∈ (DandiDav.handle_request pp0 b0 ⟨"DELETE", "/", "0", none⟩).headers := by
  refine ⟨?_, ?_, ?_⟩
  · exact ((webdav_headers_options_and_405 pp0 b0 ⟨"OPTIONS", "/", "0", none⟩).2.1 rfl).1
  · exact (webdav_headers_options_and_405 pp0 b0 ⟨"DELETE", "/", "0", none⟩).2.2
      (by decide) (by decide) (by decide)
  · exact (webdav_headers_options_and_405 pp0 b0 ⟨"DELETE", "/", "0", none⟩).1.2

/-- C10: every `PureDirPath`-producing operation preserves the validity
invariant — its output is accepted unchanged by `from_str`. -/
theorem dirpath_ops_preserve_validity :
    (∀ p r, PureDirPath.Valid p → PureDirPath.parent p = some r →
      PureDirPath.Valid r) ∧
    (∀ p q, PureDirPath.Valid p → PureDirPath.Valid q →
      PureDirPath.Valid (PureDirPath.join_dir p q)) ∧
    (∀ p c, PureDirPath.Valid p → PureDirPath.validSeg c →
      PureDirPath.Valid (PureDirPath.join_one_dir p c)) ∧
    (∀ p c, PureDirPath.Valid p → PureDirPath.validSeg c →
      PureDirPath.Valid (PureDirPath.push p c)) ∧
    (∀ p q r, PureDirPath.Valid p → PureDirPath.Valid q →
      PureDirPath.relative_to q p = some r → PureDirPath.Valid r) ∧
    (∀ c, PureDirPath.validSeg c → PureDirPath.Valid (PureDirPath.ofComponent c)) := by
  have hone : ∀ p c, PureDirPath.Valid p → PureDirPath.validSeg c →
      PureDirPath.Valid (p ++ c ++ ['/']) := by
    intro p c hp hc
    obtain ⟨ds, hds, rfl⟩ := (PureDirPath.valid_iff p).mp hp
    have he : PureDirPath.serializeDir ds ++ c ++ ['/'] =
        PureDirPath.serializeDir (ds ++ [c]) := by
      rw [PureDirPath.serializeDir_append]
      simp [PureDirPath.serializeDir, List.append_assoc]
    rw [he]
    apply PureDirPath.from_str_serializeDir
    apply PureDirPath.validSegs_append ds [c] hds
    refine ⟨by simp, ?_⟩
    intro x hx
    rw [List.mem_singleton.mp hx]
    exact hc
  refine ⟨PureDirPath.valid_parent, ?_, hone, hone, PureDirPath.valid_relative_to, ?_⟩
  · intro p q hp hq
    obtain ⟨ds, hds, rfl⟩ := (PureDirPath.valid_iff p).mp hp
    obtain ⟨cs, hcs, rfl⟩ := (PureDirPath.valid_iff q).mp hq
    show PureDirPath.Valid (PureDirPath.serializeDir ds ++ PureDirPath.serializeDir cs)
    rw [← PureDirPath.serializeDir_append]
    exact PureDirPath.from_str_serializeDir _ (PureDirPath.validSegs_append ds cs hds hcs)
  · intro c hc
    show PureDirPath.Valid (c ++ ['/'])
    have he : c ++ ['/'] = PureDirPath.serializeDir [c] := rfl
    rw [he]
    apply PureDirPath.from_str_serializeDir
    refine ⟨by simp, ?_⟩
    intro x hx
    rw [List.mem_singleton.mp hx]
    exact hc

/-- Witness for C10 exercising each operation on concrete paths. -/
theorem dirpath_ops_preserve_validity_witness :
    PureDirPath.Valid ['a', '/'] ∧
    PureDirPath.Valid (PureDirPath.join_dir ['a', '/'] ['b', '/']) ∧
    PureDirPath.Valid (PureDirPath.join_one_dir ['a', '/'] ['b']) ∧
    PureDirPath.Valid (PureDirPath.push ['a', '/'] ['b']) ∧
    PureDirPath.Valid ['b', '/'] ∧
    PureDirPath.Valid (PureDirPath.ofComponent ['c']) := by
  refine ⟨?_, ?_, ?_, ?_, ?_, ?_⟩
  · exact dirpath_ops_preserve_validity.1 ['a', '/', 'b', '/'] ['a', '/']
      (by decide) (by decide)
  · exact dirpath_ops_preserve_validity.2.1 ['a', '/'] ['b', '/']
      (by decide) (by decide)
  · exact dirpath_ops_preserve_validity.2.2.1 ['a', '/'] ['b'] (by decide) (by decide)
  · exact dirpath_ops_preserve_validity.2.2.2.1 ['a', '/'] ['b'] (by decide) (by decide)
  · exact dirpath_ops_preserve_validity.2.2.2.2.1 ['a', '/'] ['a', '/', 'b', '/']
      ['b', '/'] (by decide) (by decide) (by decide)
  · exact dirpath_ops_preserve_validity.2.2.2.2.2 ['c'] (by decide)
